import Mathlib

/-
Verification of the core of the comb_spec_searcher repository.

The development shallowly embeds the three core source modules
(rule_db.py, comb_spec_searcher.py, proof_tree.py) as executable Lean
definitions.  Combinatorial classes are opaque to the engine; since the
class database interns classes so that two equal classes share a label,
classes are represented by their integer labels throughout, and the
external capability set (class.is_empty, verification strategies, the
debug counting check) is supplied as an oracle environment.

The modules class_db.py, equiv_db.py and class_queue.py are used by the
core but their sources are not available; the operations the core calls
on them are modelled from the specification and are marked as such in
their doc comments.
-/

namespace CombSpec

abbrev Label := Int

/-- EndT is the type of a tuple of child labels of a rule. -/
abbrev EndT := List Int

/-- Lookup in an association list: returns the value of the first pair whose
key equals the given key, mirroring a Python dict access. -/
def lookupA {κ β : Type} [DecidableEq κ] (k : κ) : List (κ × β) → Option β
  | [] => none
  | p :: t => if p.1 = k then some p.2 else lookupA k t

/-- Set a key in an association list: replaces the value of the first pair
with the given key, or appends the pair at the end, mirroring a Python
dict item assignment. -/
def setKeyA {κ β : Type} [DecidableEq κ] (k : κ) (v : β) : List (κ × β) → List (κ × β)
  | [] => [(k, v)]
  | p :: t => if p.1 = k then (k, v) :: t else p :: setKeyA k v t

/-- Remove the first pair with the given key from an association list,
mirroring a Python dict pop. -/
def eraseKeyA {κ β : Type} [DecidableEq κ] (k : κ) : List (κ × β) → List (κ × β)
  | [] => []
  | p :: t => if p.1 = k then t else p :: eraseKeyA k t

/-- Lookup with a default value, mirroring a Python defaultdict access. -/
def getDA {κ β : Type} [DecidableEq κ] (m : List (κ × β)) (k : κ) (d : β) : β :=
  (lookupA k m).getD d

/-- Keys of an association list. -/
def keysA {κ β : Type} (m : List (κ × β)) : List κ := m.map Prod.fst

/-- Insert an element into a list representing a Python set: a no-op when the
element is already present, otherwise an append.  (Python set iteration order
is unspecified; insertion order is the determinisation used here.) -/
def setInsert (l : List EndT) (e : EndT) : List EndT :=
  if e ∈ l then l else l ++ [e]

/-- Sorting of a child tuple, as performed by Python tuple(sorted(end)). -/
def sortEnd (e : EndT) : EndT := e.insertionSort (· ≤ ·)

/--
RuleDB embeds the class RuleDB of rule_db.py.  The three Python dicts are
association lists in insertion order:
- rules_dict maps a start label to the set of end tuples,
- explanations maps a start label to a dict from end tuple to formal step,
- constructors maps a start label to a dict from end tuple to constructor.
-/
structure RuleDB where
  rules_dict : List (Label × List EndT)
  explanations : List (Label × List (EndT × String))
  constructors : List (Label × List (EndT × String))
deriving DecidableEq, Repr

/-- RuleDB.__init__ with no rules. -/
def RuleDB.empty : RuleDB := ⟨[], [], []⟩

/--
RuleDB.add of rule_db.py.  The runtime type checks of the Python code
(start is an int, end an iterable of ints, explanation and constructor
strings) are enforced by the Lean types.  Note that in the source the
membership check `constructor not in [cartesian, disjoint]` is nested
under the `raise TypeError` statement of the string type check and is
therefore unreachable: add never validates the constructor value, so it
is embedded without that check.
-/
def RuleDB.add (db : RuleDB) (start : Label) (end_ : EndT)
    (explanation ctor : String) : RuleDB :=
  let e := sortEnd end_
  { rules_dict := setKeyA start (setInsert (getDA db.rules_dict start []) e) db.rules_dict
    explanations :=
      setKeyA start (setKeyA e explanation (getDA db.explanations start [])) db.explanations
    constructors :=
      setKeyA start (setKeyA e ctor (getDA db.constructors start [])) db.constructors }

/-- One block of RuleDB.remove acting on explanations or constructors:
if the start key is present and the unsorted end tuple is an inner key, pop
the inner entry, and pop the start key when its inner dict becomes empty. -/
def removeInner (m : List (Label × List (EndT × String))) (start : Label)
    (end_ : EndT) : List (Label × List (EndT × String)) :=
  match lookupA start m with
  | none => m
  | some inner =>
    if (lookupA end_ inner).isSome then
      if eraseKeyA end_ inner = [] then eraseKeyA start m
      else setKeyA start (eraseKeyA end_ inner) m
    else m

/-- The block of RuleDB.remove acting on rules_dict: if the start key is
present and the unsorted end tuple is in its set, remove it, and pop the
start key when its set becomes empty. -/
def removeRules (m : List (Label × List EndT)) (start : Label)
    (end_ : EndT) : List (Label × List EndT) :=
  match lookupA start m with
  | none => m
  | some s =>
    if end_ ∈ s then
      if s.erase end_ = [] then eraseKeyA start m
      else setKeyA start (s.erase end_) m
    else m

/-- RuleDB.remove of rule_db.py.  Unlike add, the end tuple is not sorted;
the three symmetric blocks of the source are the component functions above. -/
def RuleDB.remove (db : RuleDB) (start : Label) (end_ : EndT) : RuleDB :=
  { rules_dict := removeRules db.rules_dict start end_
    explanations := removeInner db.explanations start end_
    constructors := removeInner db.constructors start end_ }

/-- RuleDB.explanation of rule_db.py: sorts the end tuple and looks it up;
the Python KeyError is modelled by none. -/
def RuleDB.explanation (db : RuleDB) (start : Label) (end_ : EndT) : Option String :=
  lookupA (sortEnd end_) (getDA db.explanations start [])

/-- RuleDB.constructor of rule_db.py: sorts the end tuple and looks it up;
the Python KeyError is modelled by none. -/
def RuleDB.constructor (db : RuleDB) (start : Label) (end_ : EndT) : Option String :=
  lookupA (sortEnd end_) (getDA db.constructors start [])

/-- Set of end tuples stored for a start label. -/
def RuleDB.ruleEnds (db : RuleDB) (start : Label) : List EndT :=
  getDA db.rules_dict start []

/-- Well-formedness invariant of a rule database reached from empty by add
calls: keys appear at most once at both levels and every stored end tuple
is sorted. -/
def RuleDB.Wf (db : RuleDB) : Prop :=
  ((keysA db.rules_dict).Nodup ∧
    ∀ p ∈ db.rules_dict, p.2.Nodup ∧ ∀ e ∈ p.2, sortEnd e = e) ∧
  ((keysA db.explanations).Nodup ∧
    ∀ p ∈ db.explanations, (keysA p.2).Nodup ∧ ∀ q ∈ p.2, sortEnd q.1 = q.1) ∧
  ((keysA db.constructors).Nodup ∧
    ∀ p ∈ db.constructors, (keysA p.2).Nodup ∧ ∀ q ∈ p.2, sortEnd q.1 = q.1)

instance (db : RuleDB) : Decidable db.Wf := by
  unfold RuleDB.Wf; infer_instance

@[simp] theorem lookupA_setKeyA_self {κ β : Type} [DecidableEq κ] (k : κ) (v : β)
    (m : List (κ × β)) : lookupA k (setKeyA k v m) = some v := by
  induction m with
  | nil => simp [setKeyA, lookupA]
  | cons p t ih =>
    by_cases h : p.1 = k
    · simp [setKeyA, lookupA, h]
    · simpa [setKeyA, lookupA, h] using ih

theorem lookupA_setKeyA_ne {κ β : Type} [DecidableEq κ] {k k' : κ} (v : β)
    (m : List (κ × β)) (h : k' ≠ k) : lookupA k' (setKeyA k v m) = lookupA k' m := by
  induction m with
  | nil => simp [setKeyA, lookupA, Ne.symm h]
  | cons p t ih =>
    by_cases hp : p.1 = k
    · subst hp
      simp [setKeyA, lookupA, Ne.symm h]
    · rw [setKeyA, if_neg hp, lookupA, lookupA]
      by_cases hp' : p.1 = k' <;> simp [hp', ih]

@[simp] theorem getDA_setKeyA_self {κ β : Type} [DecidableEq κ] (k : κ) (v d : β)
    (m : List (κ × β)) : getDA (setKeyA k v m) k d = v := by
  simp [getDA]

theorem setKeyA_setKeyA {κ β : Type} [DecidableEq κ] (k : κ) (v w : β)
    (m : List (κ × β)) : setKeyA k v (setKeyA k w m) = setKeyA k v m := by
  induction m with
  | nil => simp [setKeyA]
  | cons p t ih =>
    by_cases h : p.1 = k
    · simp [setKeyA, h]
    · simp [setKeyA, h, ih]

theorem mem_setInsert_self (l : List EndT) (e : EndT) : e ∈ setInsert l e := by
  by_cases h : e ∈ l <;> simp [setInsert, h]

theorem setInsert_of_mem {l : List EndT} {e : EndT} (h : e ∈ l) : setInsert l e = l := by
  simp [setInsert, h]

theorem lookupA_mem {κ β : Type} [DecidableEq κ] {k : κ} {v : β} {m : List (κ × β)}
    (h : lookupA k m = some v) : (k, v) ∈ m := by
  induction m with
  | nil => simp [lookupA] at h
  | cons p t ih =>
    by_cases hp : p.1 = k
    · rw [lookupA, if_pos hp] at h
      have hv : p.2 = v := by injection h
      have : p = (k, v) := by
        obtain ⟨a, b⟩ := p
        simp only at hp hv
        rw [hp, hv]
      exact this ▸ List.mem_cons_self p t
    · rw [lookupA, if_neg hp] at h
      exact List.mem_cons_of_mem _ (ih h)

theorem lookupA_eq_none {κ β : Type} [DecidableEq κ] {k : κ} {m : List (κ × β)}
    (h : ∀ p ∈ m, p.1 ≠ k) : lookupA k m = none := by
  induction m with
  | nil => rfl
  | cons p t ih =>
    rw [lookupA, if_neg (h p (List.mem_cons_self p t))]
    exact ih fun q hq => h q (List.mem_cons_of_mem p hq)

theorem mem_keysA_setKeyA {κ β : Type} [DecidableEq κ] {k k' : κ} {v : β}
    {m : List (κ × β)} : k' ∈ keysA (setKeyA k v m) ↔ k' = k ∨ k' ∈ keysA m := by
  induction m with
  | nil => simp [setKeyA, keysA]
  | cons p t ih =>
    by_cases h : p.1 = k
    · rw [setKeyA, if_pos h]
      subst h
      simp only [keysA, List.map_cons, List.mem_cons]
      tauto
    · rw [setKeyA, if_neg h]
      simp only [keysA, List.map_cons, List.mem_cons] at ih ⊢
      rw [ih]
      tauto

theorem nodup_keysA_setKeyA {κ β : Type} [DecidableEq κ] {k : κ} {v : β}
    {m : List (κ × β)} (h : (keysA m).Nodup) : (keysA (setKeyA k v m)).Nodup := by
  induction m with
  | nil => simp [setKeyA, keysA]
  | cons p t ih =>
    simp only [keysA, List.map_cons, List.nodup_cons] at h
    by_cases hp : p.1 = k
    · rw [setKeyA, if_pos hp]
      subst hp
      simp only [keysA, List.map_cons, List.nodup_cons]
      exact h
    · rw [setKeyA, if_neg hp]
      simp only [keysA, List.map_cons, List.nodup_cons]
      refine ⟨fun hmem => ?_, ih h.2⟩
      rcases (mem_keysA_setKeyA).1 hmem with rfl | hmem
      · exact hp rfl
      · exact h.1 hmem

theorem lookupA_eraseKeyA_self {κ β : Type} [DecidableEq κ] {k : κ} {m : List (κ × β)}
    (h : (keysA m).Nodup) : lookupA k (eraseKeyA k m) = none := by
  induction m with
  | nil => rfl
  | cons p t ih =>
    simp only [keysA, List.map_cons, List.nodup_cons] at h
    by_cases hp : p.1 = k
    · rw [eraseKeyA, if_pos hp]
      apply lookupA_eq_none
      intro q hq hqk
      have hk : k ∈ List.map Prod.fst t := hqk ▸ List.mem_map_of_mem Prod.fst hq
      rw [hp] at h
      exact h.1 hk
    · rw [eraseKeyA, if_neg hp, lookupA, if_neg hp]
      exact ih h.2

@[ext] theorem RuleDB.ext {a b : RuleDB} (h1 : a.rules_dict = b.rules_dict)
    (h2 : a.explanations = b.explanations) (h3 : a.constructors = b.constructors) :
    a = b := by
  cases a; cases b; simp_all

theorem sortEnd_sorted (e : EndT) : (sortEnd e).Sorted (· ≤ ·) :=
  List.sorted_insertionSort _ e

theorem sortEnd_perm (e : EndT) : (sortEnd e).Perm e :=
  List.perm_insertionSort _ e

theorem sortEnd_eq_of_perm {e1 e2 : EndT} (h : e1.Perm e2) : sortEnd e1 = sortEnd e2 :=
  List.eq_of_perm_of_sorted ((sortEnd_perm e1).trans (h.trans (sortEnd_perm e2).symm))
    (sortEnd_sorted e1) (sortEnd_sorted e2)

theorem getDA_forall {κ β : Type} [DecidableEq κ] {m : List (κ × β)} {P : β → Prop}
    (h : ∀ p ∈ m, P p.2) {k : κ} {d : β} (hd : P d) : P (getDA m k d) := by
  unfold getDA
  cases hl : lookupA k m with
  | none => exact hd
  | some v => exact h _ (lookupA_mem hl)

theorem not_mem_erase_self {α : Type} [BEq α] [LawfulBEq α] {l : List α} {a : α}
    (h : l.Nodup) : a ∉ l.erase a := by
  induction l with
  | nil => simp
  | cons b t ih =>
    rw [List.erase_cons]
    rcases List.nodup_cons.1 h with ⟨hb, ht⟩
    by_cases hba : b = a
    · rw [if_pos (beq_iff_eq.2 hba)]
      exact hba ▸ hb
    · rw [if_neg (by simpa using hba)]
      intro hmem
      rcases List.mem_cons.1 hmem with rfl | hmem
      · exact hba rfl
      · exact ih ht hmem

theorem not_mem_erase_setInsert {R : List EndT} {E : EndT} (h : R.Nodup) :
    E ∉ (setInsert R E).erase E := by
  by_cases hm : E ∈ R
  · rw [setInsert_of_mem hm]
    exact not_mem_erase_self h
  · unfold setInsert
    rw [if_neg hm, List.erase_append_right _ hm]
    simpa using hm

/--
C4: the claim states that RuleDB.add validates the constructor string and
raises on any value outside the set of cartesian and disjoint, leaving the
database unchanged.  In the source the membership check is indented under
the `raise TypeError` of the string type check, so it is unreachable: add
accepts any string.  This theorem evaluates the embedded add at the failing
input, showing the rule is stored with the invalid constructor value.
-/
theorem c4_add_skips_constructor_validation :
    (RuleDB.empty.add 0 [1, 2] "expl" "other").constructor 0 [1, 2] = some "other" ∧
    [1, 2] ∈ (RuleDB.empty.add 0 [1, 2] "expl" "other").ruleEnds 0 ∧
    (RuleDB.empty.add 0 [1, 2] "expl" "other").explanation 0 [1, 2] = some "expl" := by
  refine ⟨?_, ?_, ?_⟩ <;> decide

/--
C5: RuleDB.add sorts the children tuple before storing, so two adds whose
child tuples are permutations of each other produce the same stored rule
(the second add leaves rules_dict unchanged), and the second add replaces
the stored explanation and constructor with the newest values, which
explanation and constructor then return for any permutation of the children.
-/
theorem c5_add_collapses_permutations (db : RuleDB) (s : Label) (e1 e2 e3 : EndT)
    (x1 k1 x2 k2 : String) (h12 : e1.Perm e2) (h13 : e1.Perm e3) :
    ((db.add s e1 x1 k1).add s e2 x2 k2).rules_dict = (db.add s e1 x1 k1).rules_dict ∧
    ((db.add s e1 x1 k1).add s e2 x2 k2).explanation s e3 = some x2 ∧
    ((db.add s e1 x1 k1).add s e2 x2 k2).constructor s e3 = some k2 := by
  have hE2 : sortEnd e2 = sortEnd e1 := sortEnd_eq_of_perm h12.symm
  have hE3 : sortEnd e3 = sortEnd e1 := sortEnd_eq_of_perm h13.symm
  unfold RuleDB.add RuleDB.explanation RuleDB.constructor
  simp only [hE2, hE3, getDA_setKeyA_self, lookupA_setKeyA_self,
    setInsert_of_mem (mem_setInsert_self _ _), setKeyA_setKeyA]
  exact ⟨trivial, trivial, trivial⟩

/-- Witness for C5 at a concrete input. -/
theorem c5_witness :
    ((RuleDB.empty.add 0 [2, 1] "a" "disjoint").add 0 [1, 2] "b" "cartesian").explanation
      0 [2, 1] = some "b" :=
  (c5_add_collapses_permutations RuleDB.empty 0 [2, 1] [1, 2] [2, 1] "a" "disjoint"
    "b" "cartesian" (by decide) (by decide)).2.1

theorem mem_setInsert {l : List EndT} {e a : EndT} :
    a ∈ setInsert l e ↔ a ∈ l ∨ a = e := by
  by_cases h : e ∈ l
  · rw [setInsert_of_mem h]
    constructor
    · exact Or.inl
    · rintro (ha | rfl)
      · exact ha
      · exact h
  · unfold setInsert
    rw [if_neg h]
    simp

theorem setInsert_nodup {l : List EndT} {e : EndT} (h : l.Nodup) :
    (setInsert l e).Nodup := by
  by_cases hm : e ∈ l
  · rwa [setInsert_of_mem hm]
  · unfold setInsert
    rw [if_neg hm]
    simpa [List.nodup_append] using ⟨h, fun ha => hm ha⟩

theorem mem_setKeyA {κ β : Type} [DecidableEq κ] {k : κ} {v : β} {m : List (κ × β)}
    {p : κ × β} (h : p ∈ setKeyA k v m) : p = (k, v) ∨ p ∈ m := by
  induction m with
  | nil => simpa [setKeyA] using h
  | cons q t ih =>
    by_cases hq : q.1 = k
    · rw [setKeyA, if_pos hq] at h
      rcases List.mem_cons.1 h with rfl | hm
      · exact Or.inl rfl
      · exact Or.inr (List.mem_cons_of_mem _ hm)
    · rw [setKeyA, if_neg hq] at h
      rcases List.mem_cons.1 h with rfl | hm
      · exact Or.inr (List.mem_cons_self _ _)
      · rcases ih hm with rfl | hm2
        · exact Or.inl rfl
        · exact Or.inr (List.mem_cons_of_mem _ hm2)

theorem removeInner_absent {m : List (Label × List (EndT × String))} {start : Label}
    {end_ : EndT} (h : ∀ inner, lookupA start m = some inner → lookupA end_ inner = none) :
    removeInner m start end_ = m := by
  unfold removeInner
  split
  · rfl
  · rename_i inner hle
    rw [h inner hle]
    rfl

theorem removeRules_absent {m : List (Label × List EndT)} {start : Label}
    {end_ : EndT} (h : ∀ s, lookupA start m = some s → end_ ∉ s) :
    removeRules m start end_ = m := by
  unfold removeRules
  split
  · rfl
  · rename_i s hle
    rw [if_neg (h s hle)]

theorem lookup_removeInner {m : List (Label × List (EndT × String))} {start : Label}
    {end_ : EndT} (houter : (keysA m).Nodup)
    (hinner : ∀ p ∈ m, (keysA p.2).Nodup) :
    lookupA end_ (getDA (removeInner m start end_) start []) = none := by
  unfold removeInner
  split
  · rename_i hle
    unfold getDA
    rw [hle]
    rfl
  · rename_i inner hle
    have hkeys : (keysA inner).Nodup := hinner _ (lookupA_mem hle)
    by_cases hsome : (lookupA end_ inner).isSome
    · rw [if_pos hsome]
      by_cases h2 : eraseKeyA end_ inner = []
      · rw [if_pos h2]
        unfold getDA
        rw [lookupA_eraseKeyA_self houter]
        rfl
      · rw [if_neg h2]
        unfold getDA
        rw [lookupA_setKeyA_self]
        exact lookupA_eraseKeyA_self hkeys
    · rw [if_neg hsome]
      unfold getDA
      rw [hle]
      show lookupA end_ inner = none
      simpa using hsome

theorem notmem_removeRules {m : List (Label × List EndT)} {start : Label}
    {end_ : EndT} (houter : (keysA m).Nodup)
    (hinner : ∀ p ∈ m, p.2.Nodup) :
    end_ ∉ getDA (removeRules m start end_) start [] := by
  unfold removeRules
  split
  · rename_i hle
    unfold getDA
    rw [hle]
    simp
  · rename_i s hle
    have hnd : s.Nodup := hinner _ (lookupA_mem hle)
    by_cases hm : end_ ∈ s
    · rw [if_pos hm]
      by_cases h2 : s.erase end_ = []
      · rw [if_pos h2]
        unfold getDA
        rw [lookupA_eraseKeyA_self houter]
        simp
      · rw [if_neg h2]
        unfold getDA
        rw [lookupA_setKeyA_self]
        exact not_mem_erase_self hnd
    · rw [if_neg hm]
      unfold getDA
      rw [hle]
      exact hm

/--
C10: RuleDB.remove deletes a rule only with an already-sorted end tuple:
add normalises the children by sorting but remove does not, so after an add
with an unsorted children tuple, remove with the identical arguments changes
none of the three maps, while remove with the sorted tuple deletes the entry
from the rules dictionary, the explanations and the constructors.
-/
theorem c10_remove_requires_sorted_end (db : RuleDB) (s : Label) (e : EndT)
    (x k : String) (hwf : db.Wf) (hus : sortEnd e ≠ e) :
    (db.add s e x k).remove s e = db.add s e x k ∧
    ((db.add s e x k).remove s (sortEnd e)).explanation s e = none ∧
    ((db.add s e x k).remove s (sortEnd e)).constructor s e = none ∧
    sortEnd e ∉ ((db.add s e x k).remove s (sortEnd e)).ruleEnds s := by
  obtain ⟨⟨hrk, hrv⟩, ⟨hek, hev⟩, ⟨hck, hcv⟩⟩ := hwf
  have hneq : e ≠ sortEnd e := fun hc => hus hc.symm
  have hrsorted : ∀ y ∈ getDA db.rules_dict s [], sortEnd y = y :=
    getDA_forall (P := fun l => ∀ y ∈ l, sortEnd y = y)
      (fun p hp => (hrv p hp).2) (by intro y hy; cases hy)
  have hrnodup : (getDA db.rules_dict s []).Nodup :=
    getDA_forall (P := List.Nodup) (fun p hp => (hrv p hp).1) List.nodup_nil
  have hesorted : ∀ q ∈ getDA db.explanations s [], sortEnd q.1 = q.1 :=
    getDA_forall (P := fun l => ∀ q ∈ l, sortEnd q.1 = q.1)
      (fun p hp => (hev p hp).2) (by intro q hq; cases hq)
  have henodup : (keysA (getDA db.explanations s [])).Nodup :=
    getDA_forall (P := fun l => (keysA l).Nodup) (fun p hp => (hev p hp).1)
      List.nodup_nil
  have hcsorted : ∀ q ∈ getDA db.constructors s [], sortEnd q.1 = q.1 :=
    getDA_forall (P := fun l => ∀ q ∈ l, sortEnd q.1 = q.1)
      (fun p hp => (hcv p hp).2) (by intro q hq; cases hq)
  have hcnodup : (keysA (getDA db.constructors s [])).Nodup :=
    getDA_forall (P := fun l => (keysA l).Nodup) (fun p hp => (hcv p hp).1)
      List.nodup_nil
  refine ⟨?_, ?_, ?_, ?_⟩
  · refine RuleDB.ext ?_ ?_ ?_
    · show removeRules (db.add s e x k).rules_dict s e = (db.add s e x k).rules_dict
      apply removeRules_absent
      intro ends hends
      unfold RuleDB.add at hends
      simp only [lookupA_setKeyA_self, Option.some.injEq] at hends
      subst hends
      intro hmem
      rcases mem_setInsert.1 hmem with hmem | hmem
      · exact hus (hrsorted e hmem)
      · exact hneq hmem
    · show removeInner (db.add s e x k).explanations s e = (db.add s e x k).explanations
      apply removeInner_absent
      intro inner hinner
      unfold RuleDB.add at hinner
      simp only [lookupA_setKeyA_self, Option.some.injEq] at hinner
      subst hinner
      rw [lookupA_setKeyA_ne _ _ hneq]
      apply lookupA_eq_none
      intro q hq hqe
      exact hus (hqe ▸ hesorted q hq)
    · show removeInner (db.add s e x k).constructors s e = (db.add s e x k).constructors
      apply removeInner_absent
      intro inner hinner
      unfold RuleDB.add at hinner
      simp only [lookupA_setKeyA_self, Option.some.injEq] at hinner
      subst hinner
      rw [lookupA_setKeyA_ne _ _ hneq]
      apply lookupA_eq_none
      intro q hq hqe
      exact hus (hqe ▸ hcsorted q hq)
  · show lookupA (sortEnd e)
      (getDA (removeInner (db.add s e x k).explanations s (sortEnd e)) s []) = none
    apply lookup_removeInner
    · exact nodup_keysA_setKeyA hek
    · intro p hp
      rcases mem_setKeyA hp with rfl | hp
      · exact nodup_keysA_setKeyA henodup
      · exact (hev p hp).1
  · show lookupA (sortEnd e)
      (getDA (removeInner (db.add s e x k).constructors s (sortEnd e)) s []) = none
    apply lookup_removeInner
    · exact nodup_keysA_setKeyA hck
    · intro p hp
      rcases mem_setKeyA hp with rfl | hp
      · exact nodup_keysA_setKeyA hcnodup
      · exact (hcv p hp).1
  · show sortEnd e ∉ getDA (removeRules (db.add s e x k).rules_dict s (sortEnd e)) s []
    apply notmem_removeRules
    · exact nodup_keysA_setKeyA hrk
    · intro p hp
      rcases mem_setKeyA hp with rfl | hp
      · exact setInsert_nodup hrnodup
      · exact (hrv p hp).1

/-- Witness for C10 at a concrete input. -/
theorem c10_witness :
    (RuleDB.empty.add 0 [2, 1] "a" "disjoint").remove 0 [2, 1]
      = RuleDB.empty.add 0 [2, 1] "a" "disjoint" ∧
    ((RuleDB.empty.add 0 [2, 1] "a" "disjoint").remove 0 [1, 2]).explanation 0 [2, 1]
      = none :=
  have h := c10_remove_requires_sorted_end RuleDB.empty 0 [2, 1] "a" "disjoint"
    (by decide) (by decide)
  ⟨h.1, by
    have h2 := h.2.1
    simpa using h2⟩

/-- Insert a label into a flag set kept as a list: monotone, no duplicates. -/
def insertL (l : List Label) (x : Label) : List Label :=
  if x ∈ l then l else l ++ [x]

/--
Modelled from the spec: class_db.py is not part of the available sources.
ClassDB keeps the per-label metadata of section 4.1 of the specification
that the core driver reads and writes: the tri-state empty flag (absent
from the map means unknown), the strategy_verified flag, the verification
reason, and the expansion flags.
-/
structure ClassDB where
  empty_status : List (Label × Bool)
  strategy_verified : List Label
  verification_reason : List (Label × String)
  inferral_expanded : List Label
  expandable : List Label
  expanding_children_only : List Label
deriving DecidableEq, Repr

/-- Modelled from the spec: set_empty with the invariant that the empty
flag, once set, is immutable. -/
def ClassDB.set_empty (db : ClassDB) (l : Label) (b : Bool) : ClassDB :=
  if (lookupA l db.empty_status).isSome then db
  else { db with empty_status := db.empty_status ++ [(l, b)] }

/-- Modelled from the spec: records the verification reason for a label. -/
def ClassDB.set_verified (db : ClassDB) (l : Label) (reason : String) : ClassDB :=
  { db with verification_reason := setKeyA l reason db.verification_reason }

/-- Modelled from the spec: marks a label as strategy verified. -/
def ClassDB.set_strategy_verified (db : ClassDB) (l : Label) : ClassDB :=
  { db with strategy_verified := insertL db.strategy_verified l }

/-- Modelled from the spec: marks a label as expandable. -/
def ClassDB.set_expandable (db : ClassDB) (l : Label) : ClassDB :=
  { db with expandable := insertL db.expandable l }

/-- Modelled from the spec: retires a parent whose children are expandable. -/
def ClassDB.set_expanding_children_only (db : ClassDB) (l : Label) : ClassDB :=
  { db with expanding_children_only := insertL db.expanding_children_only l }

/-- Modelled from the spec: marks a label as inferral expanded. -/
def ClassDB.set_inferral_expanded (db : ClassDB) (l : Label) : ClassDB :=
  { db with inferral_expanded := insertL db.inferral_expanded l }

/-- Modelled from the spec: the is_expandable query. -/
def ClassDB.is_expandable (db : ClassDB) (l : Label) : Bool := l ∈ db.expandable

/-- Modelled from the spec: the is_inferral_expanded query. -/
def ClassDB.is_inferral_expanded (db : ClassDB) (l : Label) : Bool :=
  l ∈ db.inferral_expanded

/-- Modelled from the spec: verified_labels yields the strategy-verified
labels, for which tree_search_prep adds the terminal edge. -/
def ClassDB.verified_labels (db : ClassDB) : List Label := db.strategy_verified

/--
Modelled from the spec: equiv_db.py is not part of the available sources.
The union-find structure is abstracted: merges records every union call
with its explanation, and verified the labels marked verified in the
equivalence database (resolution through the set representative is
abstracted away, as no claim depends on it).
-/
structure EquivDB where
  merges : List (Label × Label × String)
  verified : List Label
deriving DecidableEq, Repr

/-- Modelled from the spec: union(u, v, explanation) records the merge and
its explanation; a union where either side is verified verifies the set. -/
def EquivDB.union (db : EquivDB) (u v : Label) (explanation : String) : EquivDB :=
  let verified2 :=
    if u ∈ db.verified ∨ v ∈ db.verified then insertL (insertL db.verified u) v
    else db.verified
  { merges := db.merges ++ [(u, v, explanation)], verified := verified2 }

/-- Modelled from the spec: update_verified marks the label verified. -/
def EquivDB.update_verified (db : EquivDB) (l : Label) : EquivDB :=
  { db with verified := insertL db.verified l }

/-- Modelled from the spec: the is_verified query. -/
def EquivDB.is_verified (db : EquivDB) (l : Label) : Bool := l ∈ db.verified

/--
Modelled from the spec: class_queue.py is not part of the available
sources.  The three-tier queue of section 4.4: working, current level,
next level, plus the ignore set; add_to_working, add_to_next and
add_to_curr append to the corresponding tier.
-/
structure ClassQueue where
  working : List Label
  curr_level : List Label
  next_level : List Label
  ignore : List Label
deriving DecidableEq, Repr

/-- Modelled from the spec: append a label to the working tier. -/
def ClassQueue.add_to_working (q : ClassQueue) (l : Label) : ClassQueue :=
  { q with working := q.working ++ [l] }

/-- Modelled from the spec: append a label to the next-level tier. -/
def ClassQueue.add_to_next (q : ClassQueue) (l : Label) : ClassQueue :=
  { q with next_level := q.next_level ++ [l] }

/--
SState is the mutable state of a CombinatorialSpecificationSearcher that
the embedded driver operations read and write: the four databases, the
warnings surfaced through the logger, and the two configuration flags the
claims depend on.
-/
structure SState where
  classdb : ClassDB
  equivdb : EquivDB
  classqueue : ClassQueue
  ruledb : RuleDB
  log : List String
  forward_equivalence : Bool
  debug : Bool
deriving DecidableEq, Repr

/-- Append a warning to the log, standing for a logger.warn call. -/
def pushLog (st : SState) (msg : String) : SState :=
  { st with log := st.log ++ [msg] }

/--
Env packages the capabilities of the external collaborators that the
driver consults: class.is_empty per label, the first successful
verification strategy with its formal step per label, and the outcome of
the debug counting check _sanity_check_rule for a parent, children and
constructor (their bodies enumerate objects of external classes, which the
engine treats as opaque).
-/
structure Env where
  classEmpty : Label → Bool
  classVerify : Label → Option String
  sanity : Label → List Label → String → Bool

/-- Warning text of _add_rule when the constructor is missing. -/
def msgAssumingDisjoint : String := "Assuming constructor is disjoint."

/-- Marker for the warning surfaced when the sanity check of an equivalent
strategy fails (the source message interpolates class reprs). -/
def msgSanityEquiv : String := "Equivalent strategy did not work"

/-- Marker for the warning surfaced when the sanity check of an expansion
strategy fails (the source message interpolates class reprs). -/
def msgSanityExpansion : String := "Expansion strategy did not work"

/-- Marker for the warning surfaced when an inferral strategy returns the
class it was applied to (the source message interpolates class reprs). -/
def msgInferralFixedPoint : String :=
  "The inferral strategy returned the same combinatorial class"

/--
Embeds CombinatorialSpecificationSearcher._add_empty_rule: mark the label
empty, record the verification reason, mark it strategy verified and
propagate verification to the equivalence database.  The explanation
parameter of the source is ignored by its body and is omitted.
-/
def addEmptyRule (st : SState) (label : Label) : SState :=
  if lookupA label st.classdb.empty_status = some true then st
  else
    { st with
      classdb :=
        ((st.classdb.set_empty label true).set_verified label
          "Contains no avoiding objects.").set_strategy_verified label
      equivdb := st.equivdb.update_verified label }

/--
Embeds CombinatorialSpecificationSearcher.is_empty: on a tri-state-unknown
label query the external class, cache the result (through _add_empty_rule
when empty), and return the cached flag.
-/
def isEmptyQ (env : Env) (st : SState) (label : Label) : SState × Bool :=
  match lookupA label st.classdb.empty_status with
  | some b => (st, b)
  | none =>
    if env.classEmpty label then
      let st1 := addEmptyRule st label
      (st1, (lookupA label st1.classdb.empty_status).getD false)
    else
      let st1 := { st with classdb := st.classdb.set_empty label false }
      (st1, (lookupA label st1.classdb.empty_status).getD false)

/--
Embeds CombinatorialSpecificationSearcher.try_verify in its force=False
form (the only one the driver uses): skip labels already verified in the
equivalence database, otherwise let the first successful verification
strategy set the verification reason and flags.
-/
def tryVerify (env : Env) (st : SState) (label : Label) : SState :=
  if st.equivdb.is_verified label then st
  else
    match env.classVerify label with
    | none => st
    | some fs =>
      { st with
        classdb := (st.classdb.set_verified label fs).set_strategy_verified label
        equivdb := st.equivdb.update_verified label }

/--
Embeds CombinatorialSpecificationSearcher._add_equivalent_rule: default
the explanation, in debug mode surface a sanity-check failure as a
warning, record the union in the equivalence database, and queue the
partner label: working when inferral or not initial, next otherwise.
-/
def addEquivalentRule (env : Env) (st : SState) (start end_ : Label)
    (explanation : Option String) (inferral initial : Bool) : SState :=
  let expl := explanation.getD "They are equivalent."
  let st1 :=
    if st.debug && !(env.sanity start [end_] "equiv") then pushLog st msgSanityEquiv
    else st
  let st2 := { st1 with equivdb := st1.equivdb.union start end_ expl }
  if inferral || !initial then
    { st2 with classqueue := st2.classqueue.add_to_working end_ }
  else
    { st2 with classqueue := st2.classqueue.add_to_next end_ }

/--
Embeds CombinatorialSpecificationSearcher._add_rule: default the
explanation, default a missing constructor to disjoint with a warning, in
debug mode surface a sanity-check failure as a warning, insert the rule
into the rule database, and queue every end label: next when initial,
working otherwise.
-/
def addRule (env : Env) (st : SState) (start : Label) (ends : List Label)
    (explanation ctor : Option String) (initial : Bool) : SState :=
  let expl := explanation.getD "Some strategy."
  let st1 := if ctor = none then pushLog st msgAssumingDisjoint else st
  let k := ctor.getD "disjoint"
  let st2 :=
    if st1.debug && !(env.sanity start ends k) then pushLog st1 msgSanityExpansion
    else st1
  let st3 := { st2 with ruledb := st2.ruledb.add start ends expl k }
  { st3 with
    classqueue :=
      ends.foldl
        (fun q e => if initial then q.add_to_next e else q.add_to_working e)
        st3.classqueue }

/--
Embeds the decision taken by _expand_class_with_strategy on one strategy
object after _strategy_cleanup (comb_spec_searcher.py lines 323-343): the
ignore_parent retirement, then the dispatch between the empty rule, the
equivalence database and the rule database.
-/
def processStrategyObject (env : Env) (st : SState) (label : Label)
    (end_labels : List Label) (formal : String) (ctor : Option String)
    (inferral initial ignoreParent : Bool) : SState :=
  let st0 :=
    if ignoreParent && end_labels.all (fun x => st.classdb.is_expandable x) then
      { st with classdb := st.classdb.set_expanding_children_only label }
    else st
  if end_labels = [] then addEmptyRule st0 label
  else if inferral then
    addEquivalentRule env st0 label end_labels.headI (some formal) inferral initial
  else if !st0.forward_equivalence && end_labels.length == 1 then
    addEquivalentRule env st0 label end_labels.headI (some formal) inferral initial
  else addRule env st0 label end_labels (some formal) ctor initial

/--
Embeds CombinatorialSpecificationSearcher._add_rule_to_rules_dict: rewrite
the rule through the equivalence representative, sorting the rewritten
children, and add it to the rules dictionary being built.
-/
def addRuleToRulesDict (rep : Label → Label) (rule : Label × EndT)
    (rules : List (Label × List EndT)) : List (Label × List EndT) :=
  let eqv_first := rep rule.1
  let eqv_rest := sortEnd (rule.2.map rep)
  setKeyA eqv_first (setInsert (getDA rules eqv_first []) eqv_rest) rules

/-- The pairs (start, end) enumerated by RuleDB.__iter__. -/
def RuleDB.pairs (db : RuleDB) : List (Label × EndT) :=
  (db.rules_dict.map (fun p => p.2.map (fun e => (p.1, e)))).flatten

/--
Embeds CombinatorialSpecificationSearcher.tree_search_prep: build the
rules dictionary for the tree searcher by rewriting every stored rule
through the equivalence representative and then adding, for every
verified label, the terminal edge to the empty children tuple.  The
representative map of the equivalence database is passed as a parameter.
-/
def treeSearchPrep (st : SState) (rep : Label → Label) : List (Label × List EndT) :=
  let rules :=
    st.ruledb.pairs.foldl (fun rules rule => addRuleToRulesDict rep rule rules) []
  st.classdb.verified_labels.foldl
    (fun rules l => setKeyA (rep l) (setInsert (getDA rules (rep l) []) []) rules)
    rules

theorem getDA_setKeyA_ne {κ β : Type} [DecidableEq κ] {k k' : κ} (v : β) (d : β)
    (m : List (κ × β)) (h : k' ≠ k) : getDA (setKeyA k v m) k' d = getDA m k' d := by
  unfold getDA
  rw [lookupA_setKeyA_ne v m h]

theorem lookupA_append_right {κ β : Type} [DecidableEq κ] {m : List (κ × β)} {k : κ}
    (h : lookupA k m = none) (v : β) : lookupA k (m ++ [(k, v)]) = some v := by
  induction m with
  | nil => simp [lookupA]
  | cons p t ih =>
    rw [lookupA] at h
    by_cases hp : p.1 = k
    · rw [if_pos hp] at h
      cases h
    · rw [if_neg hp] at h
      rw [List.cons_append, lookupA, if_neg hp]
      exact ih h

theorem mem_insertL_self (l : List Label) (x : Label) : x ∈ insertL l x := by
  by_cases h : x ∈ l <;> simp [insertL, h]

theorem foldl_preserve {α β : Type} (f : β → α → β) (P : β → Prop)
    (hstep : ∀ b a, P b → P (f b a)) : ∀ (l : List α) (b : β), P b → P (l.foldl f b)
  | [], _, hb => hb
  | a :: t, b, hb => foldl_preserve f P hstep t (f b a) (hstep b a hb)

theorem mem_foldl_verified (rep : Label → Label) :
    ∀ (labels : List Label) (rules : List (Label × List EndT)) (l : Label),
      l ∈ labels →
      [] ∈ getDA
        (labels.foldl
          (fun rules x => setKeyA (rep x) (setInsert (getDA rules (rep x) []) []) rules)
          rules)
        (rep l) [] := by
  intro labels
  induction labels with
  | nil => intro rules l h; cases h
  | cons x t ih =>
    intro rules l h
    rcases List.mem_cons.1 h with rfl | h
    · rw [List.foldl_cons]
      apply foldl_preserve _ (fun rules => [] ∈ getDA rules (rep l) [])
      · intro b a hb
        by_cases ha : rep a = rep l
        · rw [ha, getDA_setKeyA_self]
          exact mem_setInsert_self _ _
        · rw [getDA_setKeyA_ne _ _ _ (fun hc => ha hc.symm)]
          exact hb
      · rw [getDA_setKeyA_self]
        exact mem_setInsert_self _ _
    · exact ih _ l h

/-- An all-empty class database. -/
def emptyCDB : ClassDB := ⟨[], [], [], [], [], []⟩

/-- An all-empty search state: debug on, forward_equivalence off. -/
def c1State : SState :=
  ⟨emptyCDB, ⟨[], []⟩, ⟨[], [], [], []⟩, RuleDB.empty, [], false, true⟩

/--
C1: counterexample to the claim that marking a label empty inserts a
terminal rule (the label with an empty children tuple) into the rule
database: on a fresh state, _add_empty_rule sets the empty and verified
flags but leaves the rule database unchanged, so no such rule exists in it.
-/
theorem c1_counterexample :
    lookupA 7 (addEmptyRule c1State 7).classdb.empty_status = some true ∧
    7 ∈ (addEmptyRule c1State 7).classdb.strategy_verified ∧
    (addEmptyRule c1State 7).ruledb = RuleDB.empty ∧
    [] ∉ (addEmptyRule c1State 7).ruledb.ruleEnds 7 := by
  refine ⟨?_, ?_, ?_, ?_⟩ <;> decide

/--
C1 amended: marking a label empty (via is_empty on a tri-state-unknown
label whose class is empty, or via _add_empty_rule) sets the empty flag,
sets strategy_verified, records the reason string, marks the label
verified in the equivalence database, and leaves the rule database
unchanged; the terminal edge (label with empty children tuple) is seen by
the tree searcher because tree_search_prep adds it for every verified
label when the rules dictionary snapshot is built.
-/
theorem c1_empty_marking (env : Env) (st : SState) (l : Label)
    (hunknown : lookupA l st.classdb.empty_status = none) :
    lookupA l (addEmptyRule st l).classdb.empty_status = some true ∧
    l ∈ (addEmptyRule st l).classdb.strategy_verified ∧
    lookupA l (addEmptyRule st l).classdb.verification_reason
      = some "Contains no avoiding objects." ∧
    l ∈ (addEmptyRule st l).equivdb.verified ∧
    (addEmptyRule st l).ruledb = st.ruledb ∧
    (∀ rep : Label → Label,
      [] ∈ getDA (treeSearchPrep (addEmptyRule st l) rep) (rep l) []) ∧
    (env.classEmpty l = true → isEmptyQ env st l = (addEmptyRule st l, true)) := by
  have hnot : ¬lookupA l st.classdb.empty_status = some true := by
    rw [hunknown]
    intro hc
    cases hc
  have hflag :
      lookupA l (addEmptyRule st l).classdb.empty_status = some true := by
    unfold addEmptyRule
    rw [if_neg hnot]
    show lookupA l
      (((st.classdb.set_empty l true).set_verified l
        "Contains no avoiding objects.").set_strategy_verified l).empty_status = some true
    unfold ClassDB.set_strategy_verified ClassDB.set_verified ClassDB.set_empty
    rw [hunknown]
    simp only [Option.isSome_none, Bool.false_eq_true, if_false]
    exact lookupA_append_right hunknown true
  refine ⟨hflag, ?_, ?_, ?_, ?_, ?_, ?_⟩
  · unfold addEmptyRule
    rw [if_neg hnot]
    exact mem_insertL_self _ _
  · unfold addEmptyRule
    rw [if_neg hnot]
    show lookupA l (setKeyA l "Contains no avoiding objects."
      (st.classdb.set_empty l true).verification_reason) = _
    exact lookupA_setKeyA_self _ _ _
  · unfold addEmptyRule
    rw [if_neg hnot]
    exact mem_insertL_self _ _
  · unfold addEmptyRule
    rw [if_neg hnot]
  · intro rep
    unfold treeSearchPrep
    apply mem_foldl_verified
    show l ∈ (addEmptyRule st l).classdb.strategy_verified
    unfold addEmptyRule
    rw [if_neg hnot]
    exact mem_insertL_self _ _
  · intro hempty
    unfold isEmptyQ
    rw [hunknown]
    simp only [hempty, if_true]
    rw [hflag]
    rfl

/-- Witness for C1 at a concrete input. -/
theorem c1_witness :
    lookupA 3 c1State.classdb.empty_status = none ∧
    [] ∈ getDA (treeSearchPrep (addEmptyRule c1State 3) id) 3 [] :=
  ⟨by decide,
    (c1_empty_marking ⟨fun _ => false, fun _ => none, fun _ _ _ => true⟩ c1State 3
      (by decide)).2.2.2.2.2.1 id⟩

/-- An oracle environment whose classes are never empty or verified and
whose sanity checks always pass. -/
def envTrivial : Env := ⟨fun _ => false, fun _ => none, fun _ _ _ => true⟩

/-- A fresh state with forward_equivalence on and debug off. -/
def c2State : SState :=
  ⟨emptyCDB, ⟨[], []⟩, ⟨[], [], [], []⟩, RuleDB.empty, [], true, false⟩

/--
C2: counterexample to the claim that, with forward_equivalence set, every
one-child strategy object is stored as a rule in the rule database: a
one-child inferral strategy object hits the `elif inferral` branch first,
so an equivalence is recorded and the rule database is untouched.
-/
theorem c2_counterexample :
    (processStrategyObject envTrivial c2State 0 [5] "f" none true false false).ruledb
      = RuleDB.empty ∧
    (processStrategyObject envTrivial c2State 0 [5] "f" none true false
      false).equivdb.merges = [(0, 5, "f")] := by
  refine ⟨?_, ?_⟩ <;> decide

/--
C2 amended: for every strategy object processed after cleanup, if all
children were dropped as empty the parent is marked empty (an empty rule,
which touches neither the rule database nor the merges); else if the
object is inferral, or exactly one child remains and forward_equivalence
is not set, an equivalence between parent and child is recorded in the
equivalence database; otherwise (every non-inferral one-child object when
forward_equivalence is set, and every multi-child object) the rule is
stored in the rule database.
-/
theorem addEquivalentRule_merges (env : Env) (st : SState) (s e : Label)
    (expl : Option String) (inferral initial : Bool) :
    (addEquivalentRule env st s e expl inferral initial).equivdb.merges
      = st.equivdb.merges ++ [(s, e, expl.getD "They are equivalent.")] := by
  unfold addEquivalentRule EquivDB.union pushLog
  split
  · split <;> rfl
  · split <;> rfl

theorem addEquivalentRule_ruledb (env : Env) (st : SState) (s e : Label)
    (expl : Option String) (inferral initial : Bool) :
    (addEquivalentRule env st s e expl inferral initial).ruledb = st.ruledb := by
  unfold addEquivalentRule pushLog
  split
  · split <;> rfl
  · split <;> rfl

theorem addEquivalentRule_queue (env : Env) (st : SState) (s e : Label)
    (expl : Option String) (inferral initial : Bool) :
    (addEquivalentRule env st s e expl inferral initial).classqueue
      = if inferral || !initial then st.classqueue.add_to_working e
        else st.classqueue.add_to_next e := by
  unfold addEquivalentRule pushLog
  split
  · split <;> rfl
  · split <;> rfl

theorem addRule_ruledb (env : Env) (st : SState) (s : Label) (ends : List Label)
    (expl ctor : Option String) (initial : Bool) :
    (addRule env st s ends expl ctor initial).ruledb
      = st.ruledb.add s ends (expl.getD "Some strategy.") (ctor.getD "disjoint") := by
  unfold addRule pushLog
  dsimp only
  split <;> split <;> rfl

theorem addRule_merges (env : Env) (st : SState) (s : Label) (ends : List Label)
    (expl ctor : Option String) (initial : Bool) :
    (addRule env st s ends expl ctor initial).equivdb.merges = st.equivdb.merges := by
  unfold addRule pushLog
  dsimp only
  split <;> split <;> rfl

theorem addRule_queue (env : Env) (st : SState) (s : Label) (ends : List Label)
    (expl ctor : Option String) (initial : Bool) :
    (addRule env st s ends expl ctor initial).classqueue
      = ends.foldl
          (fun q e => if initial then q.add_to_next e else q.add_to_working e)
          st.classqueue := by
  unfold addRule pushLog
  dsimp only
  split <;> split <;> first
  | rfl
  | (split <;> rfl)

theorem c2_dispatch (env : Env) (st : SState) (label : Label) (ends : List Label)
    (formal : String) (ctor : Option String) (inferral initial ignoreParent : Bool) :
    (ends = [] →
      (processStrategyObject env st label ends formal ctor inferral initial
        ignoreParent).ruledb = st.ruledb ∧
      (processStrategyObject env st label ends formal ctor inferral initial
        ignoreParent).equivdb.merges = st.equivdb.merges ∧
      (lookupA label st.classdb.empty_status ≠ some true →
        label ∈ (processStrategyObject env st label ends formal ctor inferral initial
          ignoreParent).classdb.strategy_verified)) ∧
    (ends ≠ [] →
      (inferral = true ∨ (st.forward_equivalence = false ∧ ends.length = 1)) →
      (processStrategyObject env st label ends formal ctor inferral initial
        ignoreParent).equivdb.merges
        = st.equivdb.merges ++ [(label, ends.headI, formal)] ∧
      (processStrategyObject env st label ends formal ctor inferral initial
        ignoreParent).ruledb = st.ruledb) ∧
    (ends ≠ [] → inferral = false →
      (st.forward_equivalence = true ∨ ends.length ≠ 1) →
      (processStrategyObject env st label ends formal ctor inferral initial
        ignoreParent).ruledb
        = st.ruledb.add label ends formal (ctor.getD "disjoint") ∧
      (processStrategyObject env st label ends formal ctor inferral initial
        ignoreParent).equivdb.merges = st.equivdb.merges) := by
  unfold processStrategyObject
  set st0 := if ignoreParent && ends.all (fun x => st.classdb.is_expandable x) then
    { st with classdb := st.classdb.set_expanding_children_only label } else st with hst0
  have h0r : st0.ruledb = st.ruledb := by
    rw [hst0]; split <;> rfl
  have h0e : st0.equivdb = st.equivdb := by
    rw [hst0]; split <;> rfl
  have h0f : st0.forward_equivalence = st.forward_equivalence := by
    rw [hst0]; split <;> rfl
  have h0es : st0.classdb.empty_status = st.classdb.empty_status := by
    rw [hst0]; split <;> rfl
  have h0sv : st0.classdb.strategy_verified = st.classdb.strategy_verified := by
    rw [hst0]; split <;> rfl
  refine ⟨?_, ?_, ?_⟩
  · intro hnil
    subst hnil
    rw [if_pos rfl]
    unfold addEmptyRule
    by_cases hflag : lookupA label st0.classdb.empty_status = some true
    · rw [if_pos hflag]
      refine ⟨h0r, congrArg EquivDB.merges h0e, ?_⟩
      intro hne
      rw [h0es] at hflag
      exact absurd hflag hne
    · rw [if_neg hflag]
      refine ⟨h0r, ?_, fun _ => mem_insertL_self _ _⟩
      show (st0.equivdb.update_verified label).merges = st.equivdb.merges
      rw [h0e]
      rfl
  · intro hnn hcase
    rw [if_neg hnn]
    rcases hcase with hinf | ⟨hfe, hlen⟩
    · subst hinf
      rw [if_pos rfl, addEquivalentRule_merges, addEquivalentRule_ruledb, h0r, h0e]
      exact ⟨rfl, rfl⟩
    · cases hib : inferral with
      | true =>
        rw [if_pos rfl, addEquivalentRule_merges, addEquivalentRule_ruledb, h0r, h0e]
        exact ⟨rfl, rfl⟩
      | false =>
        simp only [Bool.false_eq_true, if_false]
        rw [if_pos ?hcond2, addEquivalentRule_merges, addEquivalentRule_ruledb, h0r, h0e]
        · exact ⟨rfl, rfl⟩
        case hcond2 =>
          rw [h0f, hfe, hlen]
          rfl
  · intro hnn hinf hcase
    rw [if_neg hnn]
    subst hinf
    simp only [Bool.false_eq_true, if_false]
    rw [if_neg ?hcond3, addRule_ruledb, addRule_merges, h0r, h0e]
    · exact ⟨rfl, rfl⟩
    case hcond3 =>
      intro hc
      rcases Bool.and_eq_true_iff.1 hc with ⟨hfe2, hl⟩
      rcases hcase with hfe | hlen
      · rw [h0f, hfe] at hfe2
        simp at hfe2
      · exact hlen (by simpa using hl)

/-- Witness for C2 at a concrete input: a two-child disjoint strategy
object is stored as a rule. -/
theorem c2_witness :
    (processStrategyObject envTrivial c2State 0 [5, 6] "f" (some "disjoint") false false
      false).ruledb = c2State.ruledb.add 0 [5, 6] "f" "disjoint" :=
  ((c2_dispatch envTrivial c2State 0 [5, 6] "f" (some "disjoint") false false
    false).2.2 (by decide) rfl (Or.inr (by decide))).1

theorem foldl_add_to_working (ends : List Label) : ∀ q : ClassQueue,
    ((ends.foldl (fun q e => q.add_to_working e) q).working = q.working ++ ends) ∧
    ((ends.foldl (fun q e => q.add_to_working e) q).next_level = q.next_level) := by
  induction ends with
  | nil => intro q; simp
  | cons e t ih =>
    intro q
    rcases ih (q.add_to_working e) with ⟨hw, hn⟩
    refine ⟨?_, ?_⟩
    · rw [List.foldl_cons, hw]
      show q.working ++ [e] ++ t = q.working ++ e :: t
      simp
    · rw [List.foldl_cons, hn]
      rfl

theorem foldl_add_to_next (ends : List Label) : ∀ q : ClassQueue,
    ((ends.foldl (fun q e => q.add_to_next e) q).next_level = q.next_level ++ ends) ∧
    ((ends.foldl (fun q e => q.add_to_next e) q).working = q.working) := by
  induction ends with
  | nil => intro q; simp
  | cons e t ih =>
    intro q
    rcases ih (q.add_to_next e) with ⟨hn, hw⟩
    refine ⟨?_, ?_⟩
    · rw [List.foldl_cons, hn]
      show q.next_level ++ [e] ++ t = q.next_level ++ e :: t
      simp
    · rw [List.foldl_cons, hw]
      rfl

/--
C7: queue routing of emitted rules and equivalences.  The partner label of
an equivalence recorded by _add_equivalent_rule goes to the working tier
when the phase is inferral or a non-initial expansion, and to the
next-level tier for an initial-phase equivalence; every child label of a
rule recorded by _add_rule goes to the next-level tier when the rule comes
from initial expansion and to the working tier otherwise.
-/
theorem c7_queue_routing (env : Env) (st : SState) (s e : Label) (ends : List Label)
    (expl ec : Option String) (inferral initial : Bool) :
    ((addEquivalentRule env st s e expl inferral initial).classqueue.working
        = if inferral || !initial then st.classqueue.working ++ [e]
          else st.classqueue.working) ∧
    ((addEquivalentRule env st s e expl inferral initial).classqueue.next_level
        = if inferral || !initial then st.classqueue.next_level
          else st.classqueue.next_level ++ [e]) ∧
    ((addRule env st s ends expl ec initial).classqueue.working
        = if initial then st.classqueue.working else st.classqueue.working ++ ends) ∧
    ((addRule env st s ends expl ec initial).classqueue.next_level
        = if initial then st.classqueue.next_level ++ ends
          else st.classqueue.next_level) := by
  have hq := addEquivalentRule_queue env st s e expl inferral initial
  have hr := addRule_queue env st s ends expl ec initial
  refine ⟨?_, ?_, ?_, ?_⟩
  · rw [hq]
    by_cases hc : (inferral || !initial) = true
    · rw [if_pos hc, if_pos hc]
      rfl
    · rw [if_neg hc, if_neg hc]
      rfl
  · rw [hq]
    by_cases hc : (inferral || !initial) = true
    · rw [if_pos hc, if_pos hc]
      rfl
    · rw [if_neg hc, if_neg hc]
      rfl
  · rw [hr]
    cases initial with
    | true =>
      simp only [if_true]
      have h := foldl_add_to_next ends st.classqueue
      simpa using h.2
    | false =>
      simp only [Bool.false_eq_true, if_false]
      have h := foldl_add_to_working ends st.classqueue
      simpa using h.1
  · rw [hr]
    cases initial with
    | true =>
      simp only [if_true]
      have h := foldl_add_to_next ends st.classqueue
      simpa using h.1
    | false =>
      simp only [Bool.false_eq_true, if_false]
      have h := foldl_add_to_working ends st.classqueue
      simpa using h.2

/--
C8: in debug mode a failing sanity check of a rule only surfaces a
warning: the rule is inserted into the rule database exactly as with a
passing check, and the queueing of the children proceeds identically; the
failure never aborts the expansion.  The second environment quantifies
over any other sanity outcome.
-/
theorem c8_sanity_failure_nonfatal (env env2 : Env) (st : SState) (s : Label)
    (ends : List Label) (expl ec : Option String) (initial : Bool)
    (hdebug : st.debug = true)
    (hfail : env.sanity s ends (ec.getD "disjoint") = false) :
    (addRule env st s ends expl ec initial).ruledb
      = st.ruledb.add s ends (expl.getD "Some strategy.") (ec.getD "disjoint") ∧
    msgSanityExpansion ∈ (addRule env st s ends expl ec initial).log ∧
    (addRule env2 st s ends expl ec initial).ruledb
      = (addRule env st s ends expl ec initial).ruledb ∧
    (addRule env2 st s ends expl ec initial).classqueue
      = (addRule env st s ends expl ec initial).classqueue := by
  refine ⟨addRule_ruledb env st s ends expl ec initial, ?_, ?_, ?_⟩
  · by_cases hec : ec = none
    · subst hec
      simp only [Option.getD_none] at hfail
      simp [addRule, pushLog, hdebug, hfail]
    · simp [addRule, pushLog, hec, hdebug, hfail]
  · rw [addRule_ruledb, addRule_ruledb]
  · rw [addRule_queue, addRule_queue]

/-- Witness for C8 at a concrete input: sanity check failing on the rule
0 to (5, 6). -/
theorem c8_witness :
    (addRule ⟨fun _ => false, fun _ => none, fun _ _ _ => false⟩ c1State 0 [5, 6]
      none none false).ruledb = c1State.ruledb.add 0 [5, 6] "Some strategy." "disjoint" ∧
    msgSanityExpansion ∈ (addRule ⟨fun _ => false, fun _ => none, fun _ _ _ => false⟩
      c1State 0 [5, 6] none none false).log :=
  have h := c8_sanity_failure_nonfatal ⟨fun _ => false, fun _ => none, fun _ _ _ => false⟩
    envTrivial c1State 0 [5, 6] none none false (by decide) (by decide)
  ⟨h.1, h.2.1⟩

/--
StratObj is the strategy object of strategies/strategy.py as consumed by
_expand_class_with_strategy: the produced child classes (as interned
labels), the per-child inferable and workable flags, the formal step, the
constructor attribute (absent models Python None), and ignore_parent.
-/
structure StratObj where
  objects : List Label
  inferable : List Bool
  workable : List Bool
  formal_step : String
  ctorName : Option String
  ignore_parent : Bool

/-- Zip of the per-child data of a strategy object, mirroring the zip in
_strategy_cleanup (labels coincide with objects under interning). -/
def zipChildren (objects : List Label) (inferable workable : List Bool) :
    List (Label × Bool × Bool) :=
  (objects.zip (inferable.zip workable)).map (fun p => (p.1, p.2.1, p.2.2))

/--
Embeds the per-child loop of _strategy_cleanup (symmetries disabled, the
default): queue inferable children to working, try to verify each child,
drop inferable children that are empty (recording the fact in the step
list), and make workable children expandable and queued; returns the
final state, the surviving end labels and the per-child inferral steps.
-/
def cleanupChildren (env : Env) : SState → List (Label × Bool × Bool) →
    SState × List Label × List String
  | st, [] => (st, [], [])
  | st, (l, infer, work) :: rest =>
    let st1 :=
      if infer then { st with classqueue := st.classqueue.add_to_working l } else st
    let st2 := tryVerify env st1 l
    if infer then
      match isEmptyQ env st2 l with
      | (st3, true) =>
        match cleanupChildren env st3 rest with
        | (st4, ls, steps) => (st4, ls, "Class is empty." :: steps)
      | (st3, false) =>
        let st4 :=
          if work then
            { st3 with classdb := st3.classdb.set_expandable l,
                       classqueue := st3.classqueue.add_to_working l }
          else st3
        match cleanupChildren env st4 rest with
        | (st5, ls, steps) => (st5, l :: ls, "" :: steps)
    else
      let st4 :=
        if work then
          { st2 with classdb := st2.classdb.set_expandable l,
                     classqueue := st2.classqueue.add_to_working l }
        else st2
      match cleanupChildren env st4 rest with
      | (st5, ls, steps) => (st5, l :: ls, "" :: steps)

/-- The inferral-step suffix appended to the formal step by
_strategy_cleanup. -/
def inferralStepString (steps : List String) : String :=
  "~" ++ String.join
    (steps.enum.map (fun p => "[" ++ toString p.1 ++ ": " ++ p.2 ++ "]")) ++ "~"

/-- Embeds _strategy_cleanup: clean the children and build the decorated
formal step. -/
def strategyCleanup (env : Env) (st : SState) (so : StratObj) :
    SState × List Label × String :=
  match cleanupChildren env st (zipChildren so.objects so.inferable so.workable) with
  | (st1, ls, steps) => (st1, ls, so.formal_step ++ inferralStepString steps)

/--
Embeds _expand_class_with_strategy applied with inferral=True to the
result of one inferral strategy call (which returns one strategy object or
nothing): raise on a multi-child object, warn and skip an object whose
single child equals the class it was applied to, and otherwise clean the
object and dispatch it, returning the inferred label when one survives.
-/
def expandInf (env : Env) (st : SState) (label : Label) (res : Option StratObj) :
    Except String (SState × Option Label) :=
  match res with
  | none => .ok (st, none)
  | some so =>
    if so.objects.length ≠ 1 then
      .error "Attempting to infer with non inferral strategy."
    else if so.objects = [label] then .ok (pushLog st msgInferralFixedPoint, none)
    else
      match strategyCleanup env st so with
      | (st1, end_labels, formal) =>
        .ok (processStrategyObject env st1 label end_labels formal so.ctorName
              true false so.ignore_parent,
          if end_labels.isEmpty then none else some end_labels.headI)

/-- An inferral strategy as consumed by _inferral_expand, keyed by the
interned label of the class it is applied to. -/
abbrev InfStrat := Label → Option StratObj

/-- The rotation inferral_strategies[i+1:] + inferral_strategies[0:i+1]
performed after an inferral strategy fires. -/
def rotateAfter {α : Type} (l : List α) (i : Nat) : List α :=
  l.drop (i + 1) ++ l.take (i + 1)

/--
Embeds the strategy loop of _inferral_expand: walk the strategies (each
carrying an identifier, standing for Python function identity, so the skip
comparison is decidable), skipping the one that just fired; when a
strategy infers a new label, set the inferral_expanded flag, recurse on
the inferred label with the rotated strategy list through the step
continuation, and set the flag again after the break; when the loop ends,
set the flag.  A raised TypeError is modelled by none.
-/
def infLoop (env : Env)
    (step : SState → Label → List (Nat × InfStrat) → Option Nat → Option SState)
    (label : Label) (all : List (Nat × InfStrat)) :
    List (Nat × InfStrat) → Nat → Option Nat → SState → Option SState
  | [], _, _, st =>
    some { st with classdb := st.classdb.set_inferral_expanded label }
  | p :: rest, i, skip, st =>
    if skip = some p.1 then infLoop env step label all rest (i + 1) skip st
    else
      match expandInf env st label (p.2 label) with
      | .error _ => none
      | .ok (st1, none) => infLoop env step label all rest (i + 1) skip st1
      | .ok (st1, some l2) =>
        match step { st1 with classdb := st1.classdb.set_inferral_expanded label }
            l2 (rotateAfter all i) (some p.1) with
        | none => none
        | some st3 =>
          some { st3 with classdb := st3.classdb.set_inferral_expanded label }

/--
Embeds _inferral_expand.  The recursion of the source is not structurally
bounded (each fired inferral strategy may produce a fresh label), so the
recursion depth is paid for by fuel; none means the fuel ran out or a
TypeError was raised, some the state in which the source call returns.
-/
def infExpand (env : Env) :
    Nat → SState → Label → List (Nat × InfStrat) → Option Nat → Option SState
  | 0, _, _, _, _ => none
  | fuel + 1, st, label, strats, skip =>
    if st.classdb.is_inferral_expanded label then some st
    else infLoop env (infExpand env fuel) label strats strats 0 skip st

theorem is_inferral_expanded_set (db : ClassDB) (l : Label) :
    (db.set_inferral_expanded l).is_inferral_expanded l = true := by
  unfold ClassDB.set_inferral_expanded ClassDB.is_inferral_expanded
  exact decide_eq_true (mem_insertL_self _ _)

theorem infLoop_flag (env : Env)
    (step : SState → Label → List (Nat × InfStrat) → Option Nat → Option SState)
    (label : Label) (all : List (Nat × InfStrat)) :
    ∀ (rem : List (Nat × InfStrat)) (i : Nat) (skip : Option Nat) (st st2 : SState),
      infLoop env step label all rem i skip st = some st2 →
      st2.classdb.is_inferral_expanded label = true := by
  intro rem
  induction rem with
  | nil =>
    intro i skip st st2 h
    rw [infLoop] at h
    injection h with h2
    rw [← h2]
    exact is_inferral_expanded_set _ _
  | cons p rest ih =>
    intro i skip st st2 h
    rw [infLoop] at h
    split at h
    · exact ih _ _ _ _ h
    · split at h
      · cases h
      · exact ih _ _ _ _ h
      · split at h
        · cases h
        · injection h with h2
          rw [← h2]
          exact is_inferral_expanded_set _ _

/--
C9: an inferral strategy whose single returned child equals the class it
was applied to is warned about and skipped: the call returns with only the
warning appended, so no equivalence and no rule is recorded and no
inferred label is reported; and whenever inferral expansion returns (for
any recursion depth paid for by fuel), the inferral_expanded flag of the
expanded label is set.
-/
theorem c9_inferral_fixed_point_and_flag (env : Env) :
    (∀ (st : SState) (label : Label) (so : StratObj), so.objects = [label] →
      expandInf env st label (some so)
        = .ok (pushLog st msgInferralFixedPoint, none) ∧
      (pushLog st msgInferralFixedPoint).equivdb = st.equivdb ∧
      (pushLog st msgInferralFixedPoint).ruledb = st.ruledb) ∧
    (∀ (fuel : Nat) (st : SState) (label : Label)
        (strats : List (Nat × InfStrat)) (skip : Option Nat) (st2 : SState),
      infExpand env fuel st label strats skip = some st2 →
      st2.classdb.is_inferral_expanded label = true) := by
  constructor
  · intro st label so h
    refine ⟨?_, rfl, rfl⟩
    simp [expandInf, h]
  · intro fuel
    induction fuel with
    | zero =>
      intro st label strats skip st2 h
      cases h
    | succ fuel ih =>
      intro st label strats skip st2 h
      rw [infExpand] at h
      split at h
      · rename_i hcond
        injection h with h2
        rw [← h2]
        exact hcond
      · exact infLoop_flag env (infExpand env fuel) label strats strats 0 skip st st2 h

/-- The state reached by a run of inferral expansion with no strategies. -/
def c9FinalState : SState :=
  { c1State with classdb := c1State.classdb.set_inferral_expanded 4 }

/-- Witness for C9 at concrete inputs: a fixed-point strategy object is
skipped with only a warning, and a finished inferral expansion has set the
flag. -/
theorem c9_witness :
    (expandInf envTrivial c1State 4 (some ⟨[4], [true], [true], "fs", none, false⟩)
      = .ok (pushLog c1State msgInferralFixedPoint, none)) ∧
    infExpand envTrivial 1 c1State 4 [] none = some c9FinalState ∧
    c9FinalState.classdb.is_inferral_expanded 4 = true :=
  ⟨((c9_inferral_fixed_point_and_flag envTrivial).1 c1State 4
      ⟨[4], [true], [true], "fs", none, false⟩ rfl).1,
   by decide,
   (c9_inferral_fixed_point_and_flag envTrivial).2 1 c1State 4 [] none c9FinalState
     (by decide)⟩

/--
AutoEnv is the oracle trace of one auto_search run: for the k-th loop
iteration, the wall-clock duration of the k-th find_tree attempt, whether
that attempt found a proof tree, whether the queue emptied during the k-th
expansion phase, and the accumulated _time_taken when the k-th attempt
finishes.  Wall-clock readings are external inputs of the program, so they
enter the embedding as this trace.
-/
structure AutoEnv where
  dur : Nat → Rat
  found : Nat → Bool
  emptied : Nat → Bool
  elapsed : Nat → Rat

/-- The state of the auto_search loop: still iterating with the current
expansion budget, or returned (with a tree, on max_time, or with the
queue exhausted). -/
inductive AutoState where
  | running (budget : Rat) (k : Nat)
  | foundTree (k : Nat)
  | timedOut (k : Nat)
  | exhausted (k : Nat)
deriving DecidableEq, Repr

/-- The max_time test of auto_search: only present bounds are compared. -/
def timeExceeded (maxTime : Option Rat) (t : Rat) : Bool :=
  match maxTime with
  | some m => t > m
  | none => false

/--
Embeds one iteration of the auto_search loop (comb_spec_searcher.py lines
846-878): expand within the current budget (during which the queue may
empty), search for a tree, set the next budget to min(cap times the search
duration, 3600), return the tree on success, return nothing when max_time
is exceeded, stop when the queue emptied, else loop with the new budget.
-/
def autoStep (cap : Rat) (maxTime : Option Rat) (env : AutoEnv) :
    AutoState → AutoState
  | .running _ k =>
    if env.found k then .foundTree k
    else if timeExceeded maxTime (env.elapsed k) then .timedOut k
    else if env.emptied k then .exhausted k
    else .running (min (cap * env.dur k) 3600) (k + 1)
  | s => s

/-- The auto_search loop after n iterations, from the initial budget
max_search_time = 0. -/
def autoRun (cap : Rat) (maxTime : Option Rat) (env : AutoEnv) : Nat → AutoState
  | 0 => .running 0 0
  | n + 1 => autoStep cap maxTime env (autoRun cap maxTime env n)

theorem autoStep_running (cap : Rat) (maxTime : Option Rat) (env : AutoEnv)
    (b : Rat) (k : Nat) :
    autoStep cap maxTime env (.running b k)
      = if env.found k then .foundTree k
        else if timeExceeded maxTime (env.elapsed k) then .timedOut k
        else if env.emptied k then .exhausted k
        else .running (min (cap * env.dur k) 3600) (k + 1) := rfl

theorem autoStep_found (cap : Rat) (maxTime : Option Rat) (env : AutoEnv) (k : Nat) :
    autoStep cap maxTime env (.foundTree k) = .foundTree k := rfl

theorem autoStep_timed (cap : Rat) (maxTime : Option Rat) (env : AutoEnv) (k : Nat) :
    autoStep cap maxTime env (.timedOut k) = .timedOut k := rfl

theorem autoStep_exhausted (cap : Rat) (maxTime : Option Rat) (env : AutoEnv) (k : Nat) :
    autoStep cap maxTime env (.exhausted k) = .exhausted k := rfl

/-- A trace on which the first two tree searches take 1 and 5 seconds and
fail. -/
def c6Env : AutoEnv :=
  ⟨fun k => if k = 0 then 1 else 5, fun _ => false, fun _ => false, fun _ => 0⟩

/--
C6: counterexample to the claim that after each failed find_tree attempt
the budget T is multiplied by cap (capped at one hour): with cap = 2 and
tree searches of 1 then 5 seconds, the budget after the second failed
attempt is min(2 * 5, 3600) = 10, not min(cap * T, 3600) = min(2 * 2, 3600)
= 4: the code sets the budget from the latest search duration, it does not
multiply the previous budget.
-/
theorem c6_counterexample :
    autoRun 2 none c6Env 1 = .running 2 1 ∧
    autoRun 2 none c6Env 2 = .running 10 2 ∧
    ((10 : Rat) ≠ min (2 * 2) 3600) := by
  have h1 : autoRun 2 none c6Env 1 = .running 2 1 := by
    show autoStep 2 none c6Env (.running 0 0) = .running 2 1
    rw [autoStep_running]
    norm_num [c6Env, timeExceeded]
  have h2 : autoRun 2 none c6Env 2 = .running 10 2 := by
    show autoStep 2 none c6Env (autoRun 2 none c6Env 1) = .running 10 2
    rw [h1, autoStep_running]
    norm_num [c6Env, timeExceeded]
  refine ⟨h1, h2, by norm_num⟩

/--
C6 amended: while the loop is still running after a failed find_tree
attempt, the expansion budget equals cap times the duration of that
attempt, capped at 3600 seconds (and each earlier iteration failed all
three exit tests); and the loop terminates exactly on success, on the
accumulated time exceeding max_time, or when the queue of classes to
expand empties, each outcome implying its exit condition.
-/
theorem c6_budget_and_termination (cap : Rat) (maxTime : Option Rat) (env : AutoEnv) :
    (∀ n b k, autoRun cap maxTime env n = .running b k →
      k = n ∧ (n = 0 → b = 0) ∧
      (∀ m, n = m + 1 → b = min (cap * env.dur m) 3600 ∧ env.found m = false ∧
        timeExceeded maxTime (env.elapsed m) = false ∧ env.emptied m = false)) ∧
    (∀ n k, autoRun cap maxTime env n = .foundTree k → env.found k = true) ∧
    (∀ n k, autoRun cap maxTime env n = .timedOut k →
      env.found k = false ∧ timeExceeded maxTime (env.elapsed k) = true) ∧
    (∀ n k, autoRun cap maxTime env n = .exhausted k →
      env.found k = false ∧ timeExceeded maxTime (env.elapsed k) = false ∧
      env.emptied k = true) := by
  suffices H : ∀ n,
      (∀ b k, autoRun cap maxTime env n = .running b k →
        k = n ∧ (n = 0 → b = 0) ∧
        (∀ m, n = m + 1 → b = min (cap * env.dur m) 3600 ∧ env.found m = false ∧
          timeExceeded maxTime (env.elapsed m) = false ∧ env.emptied m = false)) ∧
      (∀ k, autoRun cap maxTime env n = .foundTree k → env.found k = true) ∧
      (∀ k, autoRun cap maxTime env n = .timedOut k →
        env.found k = false ∧ timeExceeded maxTime (env.elapsed k) = true) ∧
      (∀ k, autoRun cap maxTime env n = .exhausted k →
        env.found k = false ∧ timeExceeded maxTime (env.elapsed k) = false ∧
        env.emptied k = true) by
    exact ⟨fun n => (H n).1, fun n => (H n).2.1, fun n => (H n).2.2.1,
      fun n => (H n).2.2.2⟩
  intro n
  induction n with
  | zero =>
    refine ⟨?_, ?_, ?_, ?_⟩
    · intro b k h
      injection h with h1 h2
      refine ⟨h2.symm, fun _ => h1.symm, ?_⟩
      intro m hm
      cases hm
    · intro k h
      cases h
    · intro k h
      cases h
    · intro k h
      cases h
  | succ n ih =>
    have hstep : autoRun cap maxTime env (n + 1)
        = autoStep cap maxTime env (autoRun cap maxTime env n) := rfl
    cases hprev : autoRun cap maxTime env n with
    | running b k =>
      have hk : k = n := (ih.1 b k hprev).1
      subst hk
      rw [hstep, hprev, autoStep_running]
      by_cases hf : env.found k = true
      · rw [if_pos hf]
        refine ⟨?_, ?_, ?_, ?_⟩
        · intro b2 k2 h
          cases h
        · intro k2 h
          injection h with h2
          rw [← h2]
          exact hf
        · intro k2 h
          cases h
        · intro k2 h
          cases h
      · rw [if_neg hf]
        by_cases ht : timeExceeded maxTime (env.elapsed k) = true
        · rw [if_pos ht]
          refine ⟨?_, ?_, ?_, ?_⟩
          · intro b2 k2 h
            cases h
          · intro k2 h
            cases h
          · intro k2 h
            injection h with h2
            rw [← h2]
            exact ⟨Bool.eq_false_iff.2 hf, ht⟩
          · intro k2 h
            cases h
        · rw [if_neg ht]
          by_cases hq : env.emptied k = true
          · rw [if_pos hq]
            refine ⟨?_, ?_, ?_, ?_⟩
            · intro b2 k2 h
              cases h
            · intro k2 h
              cases h
            · intro k2 h
              cases h
            · intro k2 h
              injection h with h2
              rw [← h2]
              exact ⟨Bool.eq_false_iff.2 hf, Bool.eq_false_iff.2 ht, hq⟩
          · rw [if_neg hq]
            refine ⟨?_, ?_, ?_, ?_⟩
            · intro b2 k2 h
              injection h with h1 h2
              refine ⟨h2.symm, ?_, ?_⟩
              · intro hc
                cases hc
              · intro m hm
                have hmk : m = k := by
                  have := hm
                  omega
                subst hmk
                exact ⟨h1.symm, Bool.eq_false_iff.2 hf, Bool.eq_false_iff.2 ht,
                  Bool.eq_false_iff.2 hq⟩
            · intro k2 h
              cases h
            · intro k2 h
              cases h
            · intro k2 h
              cases h
    | foundTree k =>
      rw [hstep, hprev, autoStep_found]
      refine ⟨?_, ?_, ?_, ?_⟩
      · intro b2 k2 h
        cases h
      · intro k2 h
        injection h with h2
        rw [← h2]
        exact ih.2.1 k hprev
      · intro k2 h
        cases h
      · intro k2 h
        cases h
    | timedOut k =>
      rw [hstep, hprev, autoStep_timed]
      refine ⟨?_, ?_, ?_, ?_⟩
      · intro b2 k2 h
        cases h
      · intro k2 h
        cases h
      · intro k2 h
        injection h with h2
        rw [← h2]
        exact ih.2.2.1 k hprev
      · intro k2 h
        cases h
    | exhausted k =>
      rw [hstep, hprev, autoStep_exhausted]
      refine ⟨?_, ?_, ?_, ?_⟩
      · intro b2 k2 h
        cases h
      · intro k2 h
        cases h
      · intro k2 h
        cases h
      · intro k2 h
        injection h with h2
        rw [← h2]
        exact ih.2.2.2 k hprev

/-- A trace whose third tree search succeeds. -/
def c6WitEnv : AutoEnv :=
  ⟨fun _ => 1, fun k => k == 2, fun _ => false, fun _ => 0⟩

/-- Witness for C6 at a concrete input: a successful third attempt returns
the tree, and the theorem recovers its exit condition. -/
theorem c6_witness :
    autoRun 2 (some 100) c6WitEnv 3 = .foundTree 2 ∧ c6WitEnv.found 2 = true :=
  have h3 : autoRun 2 (some 100) c6WitEnv 3 = .foundTree 2 := by
    have h1 : autoRun 2 (some 100) c6WitEnv 1 = .running 2 1 := by
      show autoStep 2 (some 100) c6WitEnv (.running 0 0) = .running 2 1
      rw [autoStep_running]
      norm_num [c6WitEnv, timeExceeded]
    have h2 : autoRun 2 (some 100) c6WitEnv 2 = .running 2 2 := by
      show autoStep 2 (some 100) c6WitEnv (autoRun 2 (some 100) c6WitEnv 1)
        = .running 2 2
      rw [h1, autoStep_running]
      norm_num [c6WitEnv, timeExceeded]
    show autoStep 2 (some 100) c6WitEnv (autoRun 2 (some 100) c6WitEnv 2)
      = .foundTree 2
    rw [h2, autoStep_running]
    norm_num [c6WitEnv]
  ⟨h3, (c6_budget_and_termination 2 (some 100) c6WitEnv).2.1 3 2 h3⟩

/-- TNode is the Node of tree_searcher.py: a label and child nodes. -/
inductive TNode where
  | mk (label : Label) (children : List TNode)

/-- Label of a tree-searcher node. -/
def TNode.label : TNode → Label
  | .mk l _ => l

/-- Children of a tree-searcher node. -/
def TNode.children : TNode → List TNode
  | .mk _ c => c

/--
PTNode is the ProofTreeNode of proof_tree.py, with the fields the claims
read: label, equivalence path labels, per-step explanations, children, the
four flags and the formal step.  The eqv_path_objects are the classes of
the path labels and carry no extra information under interning.
-/
inductive PTNode where
  | mk (label : Label) (eqv_path_labels : List Label) (eqv_explanations : List String)
      (children : List PTNode) (strategy_verified decomposition disjoint_union
      recursion : Bool) (formal_step : String)

/-- Number of the four node flags that are set. -/
def PTNode.flagsCount : PTNode → Nat
  | .mk _ _ _ _ sv dec dju rec_ _ =>
    (if sv then 1 else 0) + (if dec then 1 else 0) + (if dju then 1 else 0) +
      (if rec_ then 1 else 0)

/-- Children of a proof-tree node. -/
def PTNode.children : PTNode → List PTNode
  | .mk _ _ _ c _ _ _ _ _ => c

/-- AllFlagsOne pt holds when every node of the proof tree pt has exactly
one of the four flags set. -/
inductive AllFlagsOne : PTNode → Prop where
  | node : ∀ (label : Label) (pl : List Label) (pe : List String)
      (children : List PTNode) (sv dec dju rec_ : Bool) (fs : String),
      ((if sv then 1 else 0) + (if dec then 1 else 0) + (if dju then 1 else 0) +
        (if rec_ then 1 else 0) = 1) →
      (∀ c ∈ children, AllFlagsOne c) →
      AllFlagsOne (.mk label pl pe children sv dec dju rec_ fs)

/--
CssView packages what from_comb_spec_searcher_node reads from the
searcher: the rule database (the source-embedded RuleDB) and the queries
it makes on the equivalence and class databases, which are modelled from
the spec because equiv_db.py and class_db.py are not in the sources:
equivalent and representative lookups, shortest explanation paths,
one-step explanations, the strategy_verified flag, the verification
reason, and the equivalent set of a label.
-/
structure CssView where
  ruledb : RuleDB
  equivalent : Label → Label → Bool
  rep : Label → Label
  find_path : Label → Label → List Label
  get_explanation : Label → Label → String
  is_strategy_verified : Label → Bool
  verification_reason : Label → String
  equivalent_set : Label → List Label

/-- Embeds equivalent_strategy_verified_label of comb_spec_searcher.py:
the first strategy-verified label of the equivalence set, if any. -/
def equivalentStrategyVerifiedLabel (css : CssView) (label : Label) : Option Label :=
  (css.equivalent_set label).find? (fun e => css.is_strategy_verified e)

/-- Embeds rule_from_equivence_rule of comb_spec_searcher.py: the first
stored rule whose start is equivalent to the given start and whose
children rewrite to the given equivalence rule (Python set iteration is
determinised to insertion order). -/
def ruleFromEquivenceRule (css : CssView) (eqv_start : Label)
    (eqv_ends : List Label) : Option (Label × EndT) :=
  css.ruledb.pairs.find? (fun rule =>
    css.equivalent rule.1 eqv_start &&
      sortEnd eqv_ends == sortEnd (rule.2.map css.rep))

/-- The explanation list along an equivalence path, as built by zipping
the path with its tail. -/
def pathExplanations (css : CssView) (path : List Label) : List String :=
  (path.zip path.tail).map (fun p => css.get_explanation p.1 p.2)

/-- The inner loop of the child-matching step: find the first end label
equivalent to the child label and remove it from the list. -/
def pickEnd (css : CssView) (cl : Label) : List Label → Option (Label × List Label)
  | [] => none
  | e :: rest =>
    if css.equivalent e cl then some (e, rest)
    else
      match pickEnd css cl rest with
      | none => none
      | some (nl, rest2) => some (nl, e :: rest2)

mutual

/--
Embeds ProofTree.from_comb_spec_searcher_node (proof_tree.py lines
473-550).  A failing assert, an unmatched rule, a missing explanation or
constructor, and the NotImplementedError branch are modelled by none.
-/
def fromNode (css : CssView) : TNode → Option Label → Option PTNode
  | .mk label children, inLabelOpt =>
    let in_label := inLabelOpt.getD label
    if inLabelOpt.isSome && !(css.equivalent label in_label) then none
    else
      match children with
      | [] =>
        match equivalentStrategyVerifiedLabel css in_label with
        | some v =>
          some (.mk label (css.find_path in_label v)
            (pathExplanations css (css.find_path in_label v)) [] true false false
            false (css.verification_reason v))
        | none =>
          some (.mk label [in_label] [] [] false false false true "recurse")
      | c :: cs =>
        match ruleFromEquivenceRule css label ((c :: cs).map TNode.label) with
        | none => none
        | some (start, ends) =>
          match css.ruledb.explanation start ends,
              css.ruledb.constructor start ends with
          | some formal, some ctor =>
            match matchChildren css (c :: cs) ends with
            | none => none
            | some strat_children =>
              if ctor = "cartesian" then
                some (.mk label (css.find_path in_label start)
                  (pathExplanations css (css.find_path in_label start))
                  strat_children false true false false formal)
              else if ctor = "disjoint" ∨ ctor = "equiv" then
                some (.mk label (css.find_path in_label start)
                  (pathExplanations css (css.find_path in_label start))
                  strat_children false false true false formal)
              else if ctor = "other" then
                some (.mk label (css.find_path in_label start)
                  (pathExplanations css (css.find_path in_label start))
                  strat_children false false false false formal)
              else none
          | _, _ => none

/-- Embeds the child-matching loop of from_comb_spec_searcher_node: each
tree-searcher child is paired with the first remaining equivalent end
label and recursed on; children with no match are skipped. -/
def matchChildren (css : CssView) : List TNode → List Label → Option (List PTNode)
  | [], _ => some []
  | c :: cs, ends =>
    match pickEnd css c.label ends with
    | none => matchChildren css cs ends
    | some (nl, ends2) =>
      match fromNode css c (some nl) with
      | none => none
      | some sub =>
        match matchChildren css cs ends2 with
        | none => none
        | some rest => some (sub :: rest)

end

/-- Every constructor string stored anywhere in the database. -/
def RuleDB.storedCtors (db : RuleDB) : List String :=
  (db.constructors.map (fun p => p.2.map Prod.snd)).flatten

theorem constructor_mem_storedCtors {db : RuleDB} {s : Label} {e : EndT} {k : String}
    (h : db.constructor s e = some k) : k ∈ db.storedCtors := by
  unfold RuleDB.constructor getDA at h
  cases hl : lookupA s db.constructors with
  | none =>
    rw [hl] at h
    simp [lookupA] at h
  | some inner =>
    rw [hl] at h
    have h2 : lookupA (sortEnd e) inner = some k := h
    have hmem := lookupA_mem h2
    have houter := lookupA_mem hl
    unfold RuleDB.storedCtors
    rw [List.mem_flatten]
    refine ⟨inner.map Prod.snd, ?_, ?_⟩
    · exact List.mem_map_of_mem (fun p => p.2.map Prod.snd) houter
    · exact List.mem_map_of_mem Prod.snd hmem

/-- A searcher view holding one stored rule 0 to (1,) whose constructor is
the string other (accepted by add because of its unreachable validation),
with label 1 strategy verified. -/
def c3OtherCss : CssView :=
  { ruledb := RuleDB.empty.add 0 [1] "step" "other"
    equivalent := fun a b => a == b
    rep := fun l => l
    find_path := fun a b => if a == b then [a] else [a, b]
    get_explanation := fun _ _ => "eq"
    is_strategy_verified := fun l => l == 1
    verification_reason := fun _ => "verified"
    equivalent_set := fun l => [l] }

/-- The tree-searcher node for the rule 0 to (1,). -/
def c3Tree : TNode := .mk 0 [.mk 1 []]

/--
C3: counterexample to the claim that every node produced by
from_comb_spec_searcher_node has exactly one of the four flags set: a rule
stored with the constructor string other (which RuleDB.add accepts, its
validation being unreachable) is handled by the explicit other branch,
producing a root node with none of the four flags set.
-/
theorem c3_counterexample :
    (fromNode c3OtherCss c3Tree none).map PTNode.flagsCount = some 0 := by
  decide

/--
C3 amended: every node of a proof tree produced by
from_comb_spec_searcher_node has exactly one of the four flags
strategy_verified, disjoint_union, decomposition, recursion set, provided
every constructor stored in the rule database is one of cartesian,
disjoint and equiv; a rule whose stored constructor is the string other
instead yields a node with no flag set.
-/
theorem c3_exactly_one_flag (css : CssView)
    (hctors : ∀ k ∈ css.ruledb.storedCtors,
      k = "cartesian" ∨ k = "disjoint" ∨ k = "equiv") :
    ∀ (t : TNode) (inl : Option Label) (pt : PTNode),
      fromNode css t inl = some pt → AllFlagsOne pt := by
  suffices H : ∀ n : Nat,
      (∀ t : TNode, sizeOf t ≤ n → ∀ inl pt, fromNode css t inl = some pt →
        AllFlagsOne pt) ∧
      (∀ cs : List TNode, sizeOf cs ≤ n → ∀ ends l,
        matchChildren css cs ends = some l → ∀ c ∈ l, AllFlagsOne c) by
    intro t inl pt h
    exact (H (sizeOf t)).1 t le_rfl inl pt h
  intro n
  induction n with
  | zero =>
    constructor
    · intro t hsz
      exfalso
      cases t with
      | mk l c =>
        rw [TNode.mk.sizeOf_spec] at hsz
        omega
    · intro cs hsz ends l hm c0 hc0
      exfalso
      cases cs with
      | nil =>
        rw [List.nil.sizeOf_spec] at hsz
        omega
      | cons c t =>
        rw [List.cons.sizeOf_spec] at hsz
        omega
  | succ n ih =>
    constructor
    · intro t hsz inl pt h
      cases t with
      | mk label children =>
        have hszc : sizeOf children ≤ n := by
          rw [TNode.mk.sizeOf_spec] at hsz
          omega
        cases children with
        | nil =>
          rw [fromNode.eq_def] at h
          dsimp only at h
          split at h
          · cases h
          · split at h
            · injection h with h2
              rw [← h2]
              refine AllFlagsOne.node _ _ _ _ _ _ _ _ _ (by decide) ?_
              intro c hc
              cases hc
            · injection h with h2
              rw [← h2]
              refine AllFlagsOne.node _ _ _ _ _ _ _ _ _ (by decide) ?_
              intro c hc
              cases hc
        | cons c cs =>
          rw [fromNode.eq_def] at h
          dsimp only at h
          split at h
          · cases h
          · split at h
            · cases h
            · rename_i start ends hrule
              split at h
              · rename_i formal ctor hexp hctor
                split at h
                · cases h
                · rename_i strat_children hmc
                  split at h
                  · injection h with h2
                    rw [← h2]
                    refine AllFlagsOne.node _ _ _ _ _ _ _ _ _ (by decide) ?_
                    exact ih.2 (c :: cs) hszc ends strat_children hmc
                  · split at h
                    · injection h with h2
                      rw [← h2]
                      refine AllFlagsOne.node _ _ _ _ _ _ _ _ _ (by decide) ?_
                      exact ih.2 (c :: cs) hszc ends strat_children hmc
                    · split at h
                      · exfalso
                        rename_i hnc hnd hother
                        rcases hctors ctor (constructor_mem_storedCtors hctor) with
                          hk | hk | hk
                        · exact hnc hk
                        · exact hnd (Or.inl hk)
                        · exact hnd (Or.inr hk)
                      · cases h
              all_goals cases h
    · intro cs0 hsz ends l hm c0 hc0
      cases cs0 with
      | nil =>
        rw [matchChildren.eq_def] at hm
        dsimp only at hm
        injection hm with h2
        rw [← h2] at hc0
        cases hc0
      | cons c cs =>
        have hszc1 : sizeOf c ≤ n := by
          rw [List.cons.sizeOf_spec] at hsz
          omega
        have hszc2 : sizeOf cs ≤ n := by
          rw [List.cons.sizeOf_spec] at hsz
          omega
        rw [matchChildren.eq_def] at hm
        dsimp only at hm
        split at hm
        · exact ih.2 cs hszc2 ends l hm c0 hc0
        · rename_i nl ends2 hpick
          split at hm
          · cases hm
          · rename_i sub hsub
            split at hm
            · cases hm
            · rename_i rest hrest
              injection hm with h2
              rw [← h2] at hc0
              rcases List.mem_cons.1 hc0 with rfl | hc0
              · exact ih.1 c hszc1 (some nl) c0 hsub
              · exact ih.2 cs hszc2 ends2 rest hrest c0 hc0

/-- The view of c3OtherCss with the rule stored as disjoint. -/
def c3WitCss : CssView :=
  { ruledb := RuleDB.empty.add 0 [1] "step" "disjoint"
    equivalent := fun a b => a == b
    rep := fun l => l
    find_path := fun a b => if a == b then [a] else [a, b]
    get_explanation := fun _ _ => "eq"
    is_strategy_verified := fun l => l == 1
    verification_reason := fun _ => "verified"
    equivalent_set := fun l => [l] }

/-- Witness for C3 at a concrete input: the tree built from a stored
disjoint rule, every node carrying exactly one flag. -/
theorem c3_witness :
    AllFlagsOne (PTNode.mk 0 [0] [] [PTNode.mk 1 [1] [] [] true false false false
      "verified"] false false true false "step") :=
  c3_exactly_one_flag c3WitCss (by decide) c3Tree none
    (PTNode.mk 0 [0] [] [PTNode.mk 1 [1] [] [] true false false false "verified"]
      false false true false "step") (by rfl)

end CombSpec
